import Mathlib

/-!
Verification of the tinytui terminal UI library (`src/lib.rs`).

The Rust code is shallowly embedded: `usize` becomes `Nat` (with the checked
subtractions made explicit through `Option` where a claim is about underflow),
the `f32` split fraction becomes `ℚ` (the `as usize` cast of a nonnegative
float is modelled by `Int.toNat ∘ Int.floor`), slices become `List`, and the
terminal output stream becomes a `List` of events.
-/

namespace TinyTui

/-- Color enumeration from `src/lib.rs` (`Color`). -/
inductive Color where
  | black
  | cyan
  | default
  | green
deriving DecidableEq, Repr

/-- One buffer cell from `src/lib.rs` (`Cell`). -/
structure Cell where
  character : Char
  foreground_color : Color
  background_color : Color
deriving DecidableEq, Repr

/-- Default cell (`impl Default for Cell`): a space with default colors. -/
def Cell.defaultCell : Cell :=
  { character := ' ', foreground_color := Color.default, background_color := Color.default }

/-- Layout rectangle from `src/lib.rs` (`Rectangle`). -/
structure Rectangle where
  title : Option String
  x : Nat
  y : Nat
  width : Nat
  height : Nat
  border_color : Color
deriving DecidableEq, Repr

/-- Model of `Rectangle::split_horizontally_at`.  The Rust code computes
`left_width = (self.width as f32 * percentage) as usize`; the cast of a
nonnegative float truncates, i.e. takes the floor, which we model over `ℚ`.
`right_width = self.width - left_width`. -/
def Rectangle.split_horizontally_at (r : Rectangle) (percentage : ℚ) :
    Rectangle × Rectangle :=
  let left_width : Nat := (⌊(r.width : ℚ) * percentage⌋).toNat
  let right_width : Nat := r.width - left_width
  ({ title := none, x := r.x, y := r.y, width := left_width, height := r.height,
     border_color := r.border_color },
   { title := none, x := r.x + left_width, y := r.y, width := right_width,
     height := r.height, border_color := r.border_color })

/-- Model of `Rectangle::split_vertically_at`: `top_height = (self.height as f32
* percentage) as usize`, `bottom_height = self.height - top_height`. -/
def Rectangle.split_vertically_at (r : Rectangle) (percentage : ℚ) :
    Rectangle × Rectangle :=
  let top_height : Nat := (⌊(r.height : ℚ) * percentage⌋).toNat
  let bottom_height : Nat := r.height - top_height
  ({ title := none, x := r.x, y := r.y, width := r.width, height := top_height,
     border_color := r.border_color },
   { title := none, x := r.x, y := r.y + top_height, width := r.width,
     height := bottom_height, border_color := r.border_color })

/-- A sample 4x4 rectangle used to instantiate theorems at concrete inputs. -/
def rect4 : Rectangle :=
  { title := none, x := 0, y := 0, width := 4, height := 4,
    border_color := Color.default }

/-- A degenerate 1x1 rectangle. -/
def rect1 : Rectangle :=
  { title := none, x := 0, y := 0, width := 1, height := 1,
    border_color := Color.default }

/-- Model of `Iterator::position` as used in `HardwrappingText::next`:
index of the first newline character, if any. -/
def newline_position : List Char → Option Nat
  | [] => none
  | c :: rest => if c = '\n' then some 0 else (newline_position rest).map (· + 1)

/-- One step of the line wrapper, `HardwrappingText::next` (src/lib.rs).
Returns `none` on empty text; otherwise the emitted line together with the
remaining text.  `line_end` is the position of the first newline (or the text
length); the newline is stripped when it occurs at `line_end ≤ width`; the
emitted slice ends at `min width line_end`. -/
def hwNext (width : Nat) (text : List Char) : Option (List Char × List Char) :=
  if text = [] then none
  else
    let found : Option Nat := newline_position text
    let line_end : Nat := found.getD text.length
    let strip_newline : Nat := if found.isSome = true ∧ line_end ≤ width then 1 else 0
    let hardwrapped_line_end : Nat := min width line_end
    some (text.take hardwrapped_line_end,
          text.drop (hardwrapped_line_end + strip_newline))

/-- Iterating the wrapper with explicit fuel (the step need not make progress
when `width = 0`, so the recursion is bounded explicitly). -/
def hwLinesFuel (width : Nat) : Nat → List Char → List (List Char)
  | 0, _ => []
  | fuel + 1, text =>
    match hwNext width text with
    | none => []
    | some (line, rest) => line :: hwLinesFuel width fuel rest

/-- All lines produced by the wrapper over `text`: `text.length` steps suffice
whenever `width ≥ 1`, because every step then consumes at least one character. -/
def hwLines (width : Nat) (text : List Char) : List (List Char) :=
  hwLinesFuel width text.length text

/-- Horizontal alignment (src/lib.rs `HorizontalAlignment`). -/
inductive HorizontalAlignment where
  | left
  | right
  | center
deriving DecidableEq, Repr

/-- Rust `String::len` is the UTF-8 byte length of the string. -/
def item_len (s : String) : Nat := s.utf8ByteSize

/-- The row-size maximum in `Table::new`:
`items.iter().map(|row| row.len()).max()` - `none` on an empty item list,
where the Rust `unwrap` panics. -/
def max_row_size (items : List (List String)) : Option Nat :=
  (items.map List.length).max?

/-- Entry `i` of the `column_lengths` vector built by `Table::new`: starting
from `0`, every row raises it to `row[i].len()` whenever that is larger (rows
with no `i`-th item leave it unchanged, contributing `0`). -/
def column_length (items : List (List String)) (i : Nat) : Nat :=
  items.foldl (fun acc row => max acc ((row[i]?.map item_len).getD 0)) 0

/-- The full `column_lengths` vector of `Table::new` (one entry per column up
to the maximum row size). -/
def column_lengths (items : List (List String)) : List Nat :=
  (List.range ((max_row_size items).getD 0)).map (column_length items)

/-- The construction checks of `Table::new` (src/lib.rs 588-618): the `unwrap`
of the row-size maximum must succeed, `items.len() <= area.height - 2` and
`required_width < area.width - 2` must hold, where `required_width` is the
plain sum of `column_lengths` - the code adds no inter-column gap term here.
`Nat` subtraction truncates at zero; the claims below only involve regions
with `height, width ≥ 2`, where it agrees with `usize`. -/
def table_new_ok (items : List (List String)) (area : Rectangle) : Bool :=
  (max_row_size items).isSome &&
  decide (items.length ≤ area.height - 2) &&
  decide ((column_lengths items).sum < area.width - 2)

/-- The horizontal offset computed by `Table::render` (src/lib.rs 640-658).
Left: `1`.  Right: `area.width - column_lengths.sum() - 1 -
column_lengths.len() - 1` (the code subtracts `len` and then `1`, not
`len - 1`).  Center: `(area.width - column_lengths.sum() -
column_lengths.len() - 1) / 2`. -/
def table_x_offset (alignment : HorizontalAlignment) (width : Nat)
    (cl : List Nat) : Nat :=
  match alignment with
  | HorizontalAlignment.left => 1
  | HorizontalAlignment.right => width - cl.sum - 1 - cl.length - 1
  | HorizontalAlignment.center => (width - cl.sum - cl.length - 1) / 2

/-- One element of the output stream emitted by `Terminal::draw`. -/
inductive OutEvent where
  | clear
  | setForeground (c : Color)
  | setBackground (c : Color)
  | glyph (ch : Char)
deriving DecidableEq, Repr

/-- The cell loop of `Terminal::draw`, carrying the current foreground and
background colors: a color escape is emitted, and the carried color updated,
exactly when the cell's color differs from the carried one; the glyph is
always printed. -/
def draw_cells : List Cell → Color → Color → List OutEvent
  | [], _, _ => []
  | cell :: rest, fg, bg =>
    (if cell.foreground_color ≠ fg
      then [OutEvent.setForeground cell.foreground_color] else []) ++
      (if cell.background_color ≠ bg
        then [OutEvent.setBackground cell.background_color] else []) ++
      [OutEvent.glyph cell.character] ++
      draw_cells rest
        (if cell.foreground_color ≠ fg then cell.foreground_color else fg)
        (if cell.background_color ≠ bg then cell.background_color else bg)

/-- `Terminal::draw` (src/lib.rs 104-133): clear the screen, explicitly apply
the default foreground and background colors, then scan the flat row-major
buffer in index order (the `step_by(width)` outer loop plus the inner loop
visit indices `0, 1, 2, ...` since the buffer holds `width * height` cells).
The trailing `buffer.fill(Cell::default())` emits nothing. -/
def draw (buffer : List Cell) : List OutEvent :=
  OutEvent.clear :: OutEvent.setForeground Color.default ::
    OutEvent.setBackground Color.default ::
    draw_cells buffer Color.default Color.default

/-- Specification-side description of the escapes for one cell given the
previous cell (whose colors are the last emitted ones). -/
def cell_events (prev cell : Cell) : List OutEvent :=
  (if cell.foreground_color ≠ prev.foreground_color
    then [OutEvent.setForeground cell.foreground_color] else []) ++
    (if cell.background_color ≠ prev.background_color
      then [OutEvent.setBackground cell.background_color] else []) ++
    [OutEvent.glyph cell.character]

/-- Checked `usize` subtraction: `none` models the underflow panic. -/
def checked_sub (a b : Nat) : Option Nat :=
  if b ≤ a then some (a - b) else none

/-- The Bottom-alignment start row of `Text::render` (src/lib.rs 436):
`self.height() - 1 - 1 - self.lines_count`, with every `usize` subtraction
checked.  `lines_count` is the full wrapped line count computed at
construction, before the render loop caps the lines to `height - 2`. -/
def text_bottom_start_row (height lines_count : Nat) : Option Nat :=
  (checked_sub height 1).bind fun a =>
    (checked_sub a 1).bind fun b =>
      checked_sub b lines_count

/-- A sample 7x3 rectangle (inner size 5x1). -/
def rect7x3 : Rectangle :=
  { title := none, x := 0, y := 0, width := 7, height := 3,
    border_color := Color.default }

/-- A sample 12x12 rectangle. -/
def rect12 : Rectangle :=
  { title := none, x := 0, y := 0, width := 12, height := 12,
    border_color := Color.default }

/-- Floor of `n * p` is at most `n` when `p ≤ 1`. -/
theorem floor_mul_toNat_le (n : Nat) (p : ℚ) (h1 : p ≤ 1) :
    (⌊(n : ℚ) * p⌋).toNat ≤ n := by
  have hmul : (n : ℚ) * p ≤ (n : ℚ) := by
    calc (n : ℚ) * p ≤ (n : ℚ) * 1 := by
          exact mul_le_mul_of_nonneg_left h1 (by positivity)
      _ = (n : ℚ) := mul_one _
  have hfloor : ⌊(n : ℚ) * p⌋ ≤ (n : ℤ) := by
    have := Int.floor_le_floor hmul
    simpa using this
  exact Int.toNat_le.mpr hfloor

/-- When `1 ≤ n * p` and `p < 1`, the truncated product is in `[1, n)`. -/
theorem floor_mul_toNat_bounds (n : Nat) (p : ℚ) (h0 : 0 < p) (h1 : p < 1)
    (hn : 1 ≤ (n : ℚ) * p) :
    1 ≤ (⌊(n : ℚ) * p⌋).toNat ∧ (⌊(n : ℚ) * p⌋).toNat < n := by
  have hnpos : 0 < (n : ℚ) := by
    by_contra hcon
    push_neg at hcon
    have : (n : ℚ) * p ≤ 0 := mul_nonpos_of_nonpos_of_nonneg hcon h0.le
    linarith
  have hlow : (1 : ℤ) ≤ ⌊(n : ℚ) * p⌋ := by
    rw [Int.le_floor]
    exact_mod_cast hn
  constructor
  · omega
  · have hlt : (n : ℚ) * p < (n : ℚ) := by
      calc (n : ℚ) * p < (n : ℚ) * 1 := by
            exact mul_lt_mul_of_pos_left h1 hnpos
        _ = (n : ℚ) := mul_one _
    have hfl : ⌊(n : ℚ) * p⌋ < (n : ℤ) := by
      have h1' : (⌊(n : ℚ) * p⌋ : ℚ) ≤ (n : ℚ) * p := Int.floor_le _
      have : (⌊(n : ℚ) * p⌋ : ℚ) < (n : ℚ) := lt_of_le_of_lt h1' hlt
      exact_mod_cast this
    omega

/-- C1: splitting horizontally at a fraction `0 < p < 1` yields a left child of
width `⌊width * p⌋` at the parent's origin and a right child of width
`width - leftWidth` starting at `x + leftWidth`; the widths sum back to the
parent's width and both children keep the parent's height; symmetrically for
the vertical split on the height axis. -/
theorem split_at_fraction_spec (r : Rectangle) (p : ℚ) (h0 : 0 < p) (h1 : p < 1) :
    ((r.split_horizontally_at p).1.width = (⌊(r.width : ℚ) * p⌋).toNat ∧
     (r.split_horizontally_at p).2.width = r.width - (r.split_horizontally_at p).1.width ∧
     (r.split_horizontally_at p).1.width + (r.split_horizontally_at p).2.width = r.width ∧
     (r.split_horizontally_at p).1.height = r.height ∧
     (r.split_horizontally_at p).2.height = r.height ∧
     (r.split_horizontally_at p).1.x = r.x ∧
     (r.split_horizontally_at p).1.y = r.y ∧
     (r.split_horizontally_at p).2.x = r.x + (r.split_horizontally_at p).1.width ∧
     (r.split_horizontally_at p).2.y = r.y) ∧
    ((r.split_vertically_at p).1.height = (⌊(r.height : ℚ) * p⌋).toNat ∧
     (r.split_vertically_at p).1.height + (r.split_vertically_at p).2.height = r.height ∧
     (r.split_vertically_at p).1.width = r.width ∧
     (r.split_vertically_at p).2.width = r.width) := by
  have hwle := floor_mul_toNat_le r.width p h1.le
  have hhle := floor_mul_toNat_le r.height p h1.le
  refine ⟨⟨rfl, rfl, ?_, rfl, rfl, rfl, rfl, rfl, rfl⟩, rfl, ?_, rfl, rfl⟩
  · simp only [Rectangle.split_horizontally_at]
    omega
  · simp only [Rectangle.split_vertically_at]
    omega

/-- C1 witness: the theorem instantiated on a concrete 4x4 rectangle at `p = 1/2`. -/
theorem split_at_fraction_spec_witness :
    (0 : ℚ) < 1 / 2 ∧ (1 / 2 : ℚ) < 1 ∧
    ((rect4.split_horizontally_at (1 / 2)).1.width +
      (rect4.split_horizontally_at (1 / 2)).2.width = rect4.width) :=
  ⟨by norm_num, by norm_num,
    (split_at_fraction_spec rect4 (1 / 2) (by norm_num) (by norm_num)).1.2.2.1⟩

/-- C4 counterexample: the 1x1 rectangle split horizontally at `1/2` produces a
left child of width `0`, violating the claimed `width ≥ 1` invariant even
though the parent has `width ≥ 1`, `height ≥ 1` and the fraction is in `(0,1)`. -/
theorem split_invariant_counterexample :
    (0 : ℚ) < 1 / 2 ∧ (1 / 2 : ℚ) < 1 ∧ 1 ≤ rect1.width ∧ 1 ≤ rect1.height ∧
    ¬ (1 ≤ (rect1.split_horizontally_at (1 / 2)).1.width) := by
  refine ⟨by norm_num, by norm_num, by decide, by decide, ?_⟩
  show ¬ (1 ≤ (⌊((1 : Nat) : ℚ) * (1 / 2)⌋).toNat)
  norm_num

/-- C4 amended: if additionally `width * p ≥ 1` and `height * p ≥ 1`, both
children of both splits have `width ≥ 1` and `height ≥ 1` and lie within the
parent's bounds (the containment holds even without the extra hypotheses). -/
theorem split_preserves_invariant (r : Rectangle) (p : ℚ) (h0 : 0 < p) (h1 : p < 1)
    (hw : 1 ≤ (r.width : ℚ) * p) (hh : 1 ≤ (r.height : ℚ) * p) :
    (1 ≤ (r.split_horizontally_at p).1.width ∧
     1 ≤ (r.split_horizontally_at p).2.width ∧
     1 ≤ (r.split_horizontally_at p).1.height ∧
     1 ≤ (r.split_horizontally_at p).2.height ∧
     (r.split_horizontally_at p).1.x + (r.split_horizontally_at p).1.width ≤
       r.x + r.width ∧
     (r.split_horizontally_at p).2.x + (r.split_horizontally_at p).2.width ≤
       r.x + r.width ∧
     (r.split_horizontally_at p).1.y + (r.split_horizontally_at p).1.height ≤
       r.y + r.height ∧
     (r.split_horizontally_at p).2.y + (r.split_horizontally_at p).2.height ≤
       r.y + r.height) ∧
    (1 ≤ (r.split_vertically_at p).1.width ∧
     1 ≤ (r.split_vertically_at p).2.width ∧
     1 ≤ (r.split_vertically_at p).1.height ∧
     1 ≤ (r.split_vertically_at p).2.height ∧
     (r.split_vertically_at p).1.x + (r.split_vertically_at p).1.width ≤
       r.x + r.width ∧
     (r.split_vertically_at p).2.x + (r.split_vertically_at p).2.width ≤
       r.x + r.width ∧
     (r.split_vertically_at p).1.y + (r.split_vertically_at p).1.height ≤
       r.y + r.height ∧
     (r.split_vertically_at p).2.y + (r.split_vertically_at p).2.height ≤
       r.y + r.height) := by
  obtain ⟨hw1, hwlt⟩ := floor_mul_toNat_bounds r.width p h0 h1 hw
  obtain ⟨hh1, hhlt⟩ := floor_mul_toNat_bounds r.height p h0 h1 hh
  have hwn : 1 ≤ r.width := lt_of_le_of_lt hw1 hwlt |>.le.trans (le_refl _) |>.trans (le_refl _)
  have hhn : 1 ≤ r.height := lt_of_le_of_lt hh1 hhlt |>.le.trans (le_refl _)
  constructor
  · refine ⟨hw1, ?_, hhn, hhn, ?_, ?_, ?_, ?_⟩ <;>
      simp only [Rectangle.split_horizontally_at] <;> omega
  · refine ⟨hwn, hwn, hh1, ?_, ?_, ?_, ?_, ?_⟩ <;>
      simp only [Rectangle.split_vertically_at] <;> omega

/-- C4 amended witness: concrete instantiation on the 4x4 rectangle at `p = 1/2`. -/
theorem split_preserves_invariant_witness :
    (0 : ℚ) < 1 / 2 ∧ (1 / 2 : ℚ) < 1 ∧ 1 ≤ ((4 : Nat) : ℚ) * (1 / 2) ∧
    1 ≤ (rect4.split_horizontally_at (1 / 2)).1.width :=
  ⟨by norm_num, by norm_num, by norm_num,
    (split_preserves_invariant rect4 (1 / 2) (by norm_num) (by norm_num)
      (by norm_num [rect4]) (by norm_num [rect4])).1.1⟩

/-- The newline search returns `none` exactly when the text has no newline. -/
theorem newline_position_eq_none_iff (text : List Char) :
    newline_position text = none ↔ '\n' ∉ text := by
  induction text with
  | nil => simp [newline_position]
  | cons c rest ih =>
    by_cases hc : c = '\n'
    · subst hc
      simp [newline_position]
    · simp [newline_position, hc, ih, Ne.symm hc]

/-- A successful newline search returns the index of the first newline. -/
theorem newline_position_eq_some (text : List Char) (p : Nat)
    (h : newline_position text = some p) :
    text[p]? = some '\n' ∧ '\n' ∉ text.take p ∧ p < text.length := by
  induction text generalizing p with
  | nil => simp [newline_position] at h
  | cons c rest ih =>
    by_cases hc : c = '\n'
    · subst hc
      simp [newline_position] at h
      subst h
      simp
    · simp [newline_position, hc] at h
      obtain ⟨q, hq, rfl⟩ := h
      obtain ⟨h1, h2, h3⟩ := ih q hq
      refine ⟨by simpa using h1, ?_, by simpa using h3⟩
      simp [List.take_succ_cons, hc, h2]
      exact Ne.symm hc

/-- Conversely, the index of the first newline is what the search returns. -/
theorem newline_position_eq_some_of (text : List Char) (p : Nat)
    (hp : text[p]? = some '\n') (hbefore : '\n' ∉ text.take p) :
    newline_position text = some p := by
  induction text generalizing p with
  | nil => simp at hp
  | cons c rest ih =>
    by_cases hc : c = '\n'
    · subst hc
      cases p with
      | zero => simp [newline_position]
      | succ q => simp [List.take_succ_cons] at hbefore
    · cases p with
      | zero => simp at hp; exact absurd hp hc
      | succ q =>
        simp [List.take_succ_cons] at hbefore
        simp at hp
        simp [newline_position, hc, ih q hp hbefore.2]

/-- A wrapper step over newline-free text emits the first `min width length`
characters and consumes exactly those. -/
theorem hwNext_no_newline (width : Nat) (text : List Char) (hne : text ≠ [])
    (hnl : '\n' ∉ text) :
    hwNext width text = some (text.take (min width text.length),
      text.drop (min width text.length)) := by
  have hnp : newline_position text = none := (newline_position_eq_none_iff text).mpr hnl
  simp [hwNext, hne, hnp]

/-- Fuel above the text length is irrelevant when `width ≥ 1`. -/
theorem hwLinesFuel_congr (width : Nat) (hW : 1 ≤ width) :
    ∀ fuel₁ fuel₂ text, text.length ≤ fuel₁ → text.length ≤ fuel₂ →
      hwLinesFuel width fuel₁ text = hwLinesFuel width fuel₂ text := by
  intro fuel₁
  induction fuel₁ with
  | zero =>
    intro fuel₂ text h1 _
    have htext : text = [] := List.eq_nil_of_length_eq_zero (Nat.le_zero.mp h1)
    subst htext
    cases fuel₂ <;> simp [hwLinesFuel, hwNext]
  | succ fuel₁ ih =>
    intro fuel₂ text h1 h2
    by_cases hne : text = []
    · subst hne
      cases fuel₂ <;> simp [hwLinesFuel, hwNext]
    · have hlen : 1 ≤ text.length := List.length_pos.mpr hne
      cases fuel₂ with
      | zero => omega
      | succ fuel₂ =>
        simp only [hwLinesFuel]
        cases hstep : hwNext width text with
        | none => rfl
        | some lr =>
          obtain ⟨line, rest⟩ := lr
          have hprog : rest.length < text.length := by
            have := hstep
            simp only [hwNext, hne, if_false] at this
            cases hnp : newline_position text with
            | none =>
              simp [hnp] at this
              obtain ⟨-, hrest⟩ := this
              subst hrest
              simp
              omega
            | some p =>
              simp [hnp] at this
              obtain ⟨-, hrest⟩ := this
              by_cases hple : p ≤ width
              · simp [hple] at hrest
                subst hrest
                simp
                omega
              · simp [hple] at hrest
                subst hrest
                simp
                omega
          show line :: hwLinesFuel width fuel₁ rest = line :: hwLinesFuel width fuel₂ rest
          rw [ih fuel₂ rest (by omega) (by omega)]

/-- A step of the wrapper on nonempty text strictly shrinks it when `width ≥ 1`. -/
theorem hwNext_progress (width : Nat) (hW : 1 ≤ width) (text line rest : List Char)
    (hstep : hwNext width text = some (line, rest)) :
    rest.length < text.length := by
  by_cases hne : text = []
  · subst hne
    simp [hwNext] at hstep
  · have hlen : 1 ≤ text.length := List.length_pos.mpr hne
    simp only [hwNext, hne, if_false] at hstep
    cases hnp : newline_position text with
    | none =>
      simp [hnp] at hstep
      obtain ⟨-, hrest⟩ := hstep
      subst hrest
      simp
      omega
    | some p =>
      simp [hnp] at hstep
      obtain ⟨-, hrest⟩ := hstep
      by_cases hple : p ≤ width
      · simp [hple] at hrest
        subst hrest
        simp
        omega
      · simp [hple] at hrest
        subst hrest
        simp
        omega

/-- C2 counterexample: for `"ab\ncd"` at width `2` the sole newline sits at
position `2`, which is not strictly before the width, yet the step consumes it:
it emits `"ab"` and leaves `"cd"`, not the un-skipped remainder `"\ncd"`. -/
theorem hwNext_boundary_counterexample :
    '\n' ∉ (['a', 'b', '\n', 'c', 'd'] : List Char).take 2 ∧
    hwNext 2 ['a', 'b', '\n', 'c', 'd'] = some (['a', 'b'], ['c', 'd']) ∧
    (['c', 'd'] : List Char) ≠ (['a', 'b', '\n', 'c', 'd'] : List Char).drop 2 := by
  refine ⟨by decide, ?_, by decide⟩
  decide

/-- C2 amended: in every step over nonempty text, if the first line break sits
at position `p ≤ width` the emitted line is the first `p` characters and
`p + 1` characters are consumed (the break is consumed and skipped, not
emitted); if the first break sits beyond `width`, or there is none, the
emitted line is exactly `min width length` characters and exactly the emitted
characters are consumed. -/
theorem hwNext_step_spec (width : Nat) (text : List Char) (hne : text ≠ []) :
    (∀ p, text[p]? = some '\n' → '\n' ∉ text.take p → p ≤ width →
      hwNext width text = some (text.take p, text.drop (p + 1))) ∧
    (∀ p, text[p]? = some '\n' → '\n' ∉ text.take p → width < p →
      hwNext width text = some (text.take width, text.drop width)) ∧
    ('\n' ∉ text →
      hwNext width text = some (text.take (min width text.length),
        text.drop (min width text.length))) := by
  refine ⟨?_, ?_, hwNext_no_newline width text hne⟩
  · intro p hp hbefore hple
    have hnp := newline_position_eq_some_of text p hp hbefore
    simp [hwNext, hne, hnp, hple, Nat.min_eq_right hple]
  · intro p hp hbefore hgt
    have hnp := newline_position_eq_some_of text p hp hbefore
    simp [hwNext, hne, hnp, Nat.not_le.mpr hgt, Nat.min_eq_left hgt.le]

/-- C2 amended witness: one step over `"a\nb"` at width `5` emits `"a"` and
skips the break. -/
theorem hwNext_step_spec_witness :
    hwNext 5 ['a', '\n', 'b'] = some (['a'], ['b']) := by
  have h := (hwNext_step_spec 5 ['a', '\n', 'b'] (by decide)).1 1
    (by decide) (by decide) (by decide)
  simpa using h

/-- C6 counterexample: at width `0` the wrapper step on the nonempty text
`"a"` emits an empty line and leaves the text unchanged, so iteration never
reaches the empty sequence. -/
theorem hwNext_zero_width_counterexample :
    hwNext 0 ['a'] = some ([], ['a']) ∧ (['a'] : List Char) ≠ [] := by
  refine ⟨?_, by decide⟩
  decide

/-- C6 amended: for every target width `≥ 1`, each wrapper step on nonempty
text strictly shrinks the remaining text, and iteration is complete after at
most `text.length` steps (any fuel at least the text length yields the same
finite line sequence). -/
theorem hardwrap_terminates (width : Nat) (text : List Char) (hW : 1 ≤ width) :
    (∀ line rest, hwNext width text = some (line, rest) →
      rest.length < text.length) ∧
    (∀ fuel, text.length ≤ fuel →
      hwLinesFuel width fuel text = hwLines width text) := by
  constructor
  · intro line rest hstep
    exact hwNext_progress width hW text line rest hstep
  · intro fuel hfuel
    exact hwLinesFuel_congr width hW fuel text.length text hfuel le_rfl

/-- C6 amended witness: a concrete step at width `2` on `"abc"` shrinks the
text, and extra fuel does not change the line sequence. -/
theorem hardwrap_terminates_witness :
    (['c'] : List Char).length < (['a', 'b', 'c'] : List Char).length ∧
    hwLinesFuel 2 7 ['a', 'b', 'c'] = hwLines 2 ['a', 'b', 'c'] :=
  ⟨(hardwrap_terminates 2 ['a', 'b', 'c'] (by decide)).1 ['a', 'b'] ['c'] (by decide),
   (hardwrap_terminates 2 ['a', 'b', 'c'] (by decide)).2 7 (by decide)⟩

/-- Auxiliary induction for C8, phrased over explicit fuel. -/
theorem hwLinesFuel_no_newline_spec (W : Nat) (hW : 1 ≤ W) :
    ∀ fuel text, text.length ≤ fuel → '\n' ∉ text →
      (hwLinesFuel W fuel text).length = (text.length + W - 1) / W ∧
      (∀ l ∈ hwLinesFuel W fuel text, l.length ≤ W) ∧
      (hwLinesFuel W fuel text).flatten = text := by
  intro fuel
  induction fuel with
  | zero =>
    intro text hlen _
    have htext : text = [] := List.eq_nil_of_length_eq_zero (Nat.le_zero.mp hlen)
    subst htext
    have hdiv : (0 + W - 1) / W = 0 := Nat.div_eq_of_lt (by omega)
    refine ⟨?_, by simp [hwLinesFuel], by simp [hwLinesFuel]⟩
    simpa [hwLinesFuel] using hdiv.symm
  | succ fuel ih =>
    intro text hlen hnl
    by_cases hne : text = []
    · subst hne
      have hdiv : (0 + W - 1) / W = 0 := Nat.div_eq_of_lt (by omega)
      refine ⟨?_, by simp [hwLinesFuel, hwNext], by simp [hwLinesFuel, hwNext]⟩
      simpa [hwLinesFuel, hwNext] using hdiv.symm
    · have hlen1 : 1 ≤ text.length := List.length_pos.mpr hne
      have hstep := hwNext_no_newline W text hne hnl
      have hrestnl : '\n' ∉ text.drop (min W text.length) :=
        fun h => hnl (List.drop_subset _ _ h)
      have hrestlen : (text.drop (min W text.length)).length ≤ fuel := by
        simp
        omega
      obtain ⟨ihlen, ihbound, ihjoin⟩ := ih (text.drop (min W text.length)) hrestlen hrestnl
      simp only [hwLinesFuel, hstep]
      refine ⟨?_, ?_, ?_⟩
      · simp only [List.length_cons, ihlen, List.length_drop]
        rcases Nat.le_total W text.length with hcase | hcase
        · rw [Nat.min_eq_left hcase]
          have hrw : text.length + W - 1 = (text.length - 1) + W := by omega
          have hrw2 : text.length - W + W - 1 = text.length - 1 := by omega
          rw [hrw, hrw2, Nat.add_div_right _ (by omega)]
        · rw [Nat.min_eq_right hcase, Nat.sub_self]
          have h1 : (0 + W - 1) / W = 0 := Nat.div_eq_of_lt (by omega)
          have h2 : (text.length + W - 1) / W = 1 := by
            apply Nat.div_eq_of_lt_le
            · omega
            · omega
          omega
      · intro l hl
        rcases List.mem_cons.mp hl with hl | hl
        · subst hl
          simp
        · exact ihbound l hl
      · simp only [List.flatten_cons, ihjoin]
        exact List.take_append_drop _ _

/-- C8: wrapping a newline-free sequence of length `len` at width `W ≥ 1`
yields exactly `⌈len / W⌉ = (len + W - 1) / W` lines, each of length at most
`W`, whose concatenation is the original sequence. -/
theorem hardwrap_no_newline_spec (text : List Char) (W : Nat) (hW : 1 ≤ W)
    (hnl : '\n' ∉ text) :
    (hwLines W text).length = (text.length + W - 1) / W ∧
    (∀ l ∈ hwLines W text, l.length ≤ W) ∧
    (hwLines W text).flatten = text :=
  hwLinesFuel_no_newline_spec W hW text.length text le_rfl hnl

/-- C8 witness: `"abc"` at width `2` wraps into `⌈3/2⌉ = 2` lines that
concatenate back to `"abc"`. -/
theorem hardwrap_no_newline_spec_witness :
    1 ≤ 2 ∧ '\n' ∉ (['a', 'b', 'c'] : List Char) ∧
    (hwLines 2 ['a', 'b', 'c']).length = (3 + 2 - 1) / 2 :=
  ⟨by decide, by decide,
    (hardwrap_no_newline_spec ['a', 'b', 'c'] 2 (by decide) (by decide)).1⟩

/-- The row-size maximum exists exactly for nonempty item lists. -/
theorem max_row_size_isSome (items : List (List String)) :
    (max_row_size items).isSome = true ↔ items ≠ [] := by
  cases items with
  | nil => simp [max_row_size]
  | cons r rest => simp [max_row_size, List.max?_cons']

/-- The column fold never drops below its accumulator. -/
theorem column_fold_ge_init (i : Nat) (items : List (List String)) :
    ∀ a : Nat,
      a ≤ items.foldl (fun acc row => max acc ((row[i]?.map item_len).getD 0)) a := by
  induction items with
  | nil => intro a; simp
  | cons r rest ih =>
    intro a
    simp only [List.foldl_cons]
    exact le_trans (Nat.le_max_left _ _) (ih _)

/-- The column fold dominates the contribution of every row. -/
theorem column_fold_ge_mem (i : Nat) (row : List String) :
    ∀ items : List (List String), row ∈ items → ∀ a : Nat,
      (row[i]?.map item_len).getD 0 ≤
        items.foldl (fun acc r => max acc ((r[i]?.map item_len).getD 0)) a := by
  intro items
  induction items with
  | nil =>
    intro hmem
    exact absurd hmem (List.not_mem_nil _)
  | cons r rest ih =>
    intro hmem a
    simp only [List.foldl_cons]
    rcases List.mem_cons.mp hmem with h | h
    · subst h
      exact le_trans (Nat.le_max_right _ _) (column_fold_ge_init i rest _)
    · exact ih h _

/-- The column fold is attained: it is the accumulator or some row's width. -/
theorem column_fold_attained (i : Nat) :
    ∀ (items : List (List String)) (a : Nat),
      items.foldl (fun acc r => max acc ((r[i]?.map item_len).getD 0)) a = a ∨
      ∃ row ∈ items,
        items.foldl (fun acc r => max acc ((r[i]?.map item_len).getD 0)) a =
          (row[i]?.map item_len).getD 0 := by
  intro items
  induction items with
  | nil =>
    intro a
    left
    rfl
  | cons r rest ih =>
    intro a
    simp only [List.foldl_cons]
    rcases ih (max a ((r[i]?.map item_len).getD 0)) with h | ⟨row, hrow, heq⟩
    · rw [h]
      rcases Nat.le_total ((r[i]?.map item_len).getD 0) a with hle | hle
      · left
        exact Nat.max_eq_left hle
      · right
        exact ⟨r, List.mem_cons_self r rest, Nat.max_eq_right hle⟩
    · right
      exact ⟨row, List.mem_cons_of_mem r hrow, heq⟩

/-- C3 counterexample: for the single row `["aa", "bb"]` in a 7x3 region the
sum of column widths plus the inter-column gap reaches the inner width
(`4 + 1 ≥ 5`), so the claim says construction must fail - yet the code's
check uses the plain sum without gaps (`4 < 5`) and succeeds. -/
theorem table_new_gap_counterexample :
    table_new_ok [["aa", "bb"]] rect7x3 = true ∧
    rect7x3.width - 2 ≤ (column_lengths [["aa", "bb"]]).sum +
      ((column_lengths [["aa", "bb"]]).length - 1) := by
  refine ⟨?_, by decide⟩
  decide

/-- C3 amended: `Table::new` succeeds exactly when the row list is nonempty,
the row count is at most the inner height `height - 2`, and the plain sum of
per-column maximum widths (with no inter-column gap term) is strictly below
the inner width `width - 2`; the computed `column_lengths[i]` is the maximum
over all rows of the length of the row's `i`-th item (rows with no `i`-th
item contributing `0`). -/
theorem table_new_spec (items : List (List String)) (area : Rectangle) :
    (table_new_ok items area = true ↔
      items ≠ [] ∧ items.length ≤ area.height - 2 ∧
        (column_lengths items).sum < area.width - 2) ∧
    (∀ row ∈ items, ∀ i : Nat,
      (row[i]?.map item_len).getD 0 ≤ column_length items i) ∧
    (∀ i : Nat, column_length items i = 0 ∨
      ∃ row ∈ items, column_length items i = (row[i]?.map item_len).getD 0) := by
  refine ⟨?_, ?_, ?_⟩
  · rw [table_new_ok]
    simp only [Bool.and_eq_true, decide_eq_true_eq, max_row_size_isSome, and_assoc]
  · intro row hmem i
    simpa [column_length] using column_fold_ge_mem i row items hmem 0
  · intro i
    simpa [column_length] using column_fold_attained i items 0

/-- C3 amended witness: a concrete successful construction. -/
theorem table_new_spec_witness :
    table_new_ok [["aa"], ["bbb"]] rect12 = true :=
  (table_new_spec [["aa"], ["bbb"]] rect12).1.mpr ⟨by decide, by decide, by decide⟩

/-- C9: on an empty row list the row-size maximum is `none` (the Rust
`unwrap` panics, so no empty `Table` reaches the fast-exit path of
`Table::render`); on every nonempty row list the `unwrap` succeeds. -/
theorem table_empty_unwrap_panics (items : List (List String)) (area : Rectangle) :
    (items = [] → max_row_size items = none ∧ table_new_ok items area = false) ∧
    (items ≠ [] → (max_row_size items).isSome = true) := by
  constructor
  · rintro rfl
    exact ⟨rfl, rfl⟩
  · intro h
    exact (max_row_size_isSome items).mpr h

/-- C9 witness: concrete empty and nonempty instantiations. -/
theorem table_empty_unwrap_panics_witness :
    table_new_ok [] rect12 = false ∧ (max_row_size [["a"]]).isSome = true :=
  ⟨((table_empty_unwrap_panics [] rect12).1 rfl).2,
   (table_empty_unwrap_panics [["a"]] rect12).2 (by decide)⟩

/-- C7 (code bug): with column widths `[3, 2]` in a region of width `10`, the
Right-aligned offset the code computes is `1`, but placing the block so it
ends at the last interior column requires `width - 1 - (sum + count - 1) = 3`;
Center yields `1` instead of `(width - (sum + count - 1)) / 2 = 2`; Left is
`1` as claimed.  The code subtracts `column_lengths.len() + 1` where its own
comments indicate one border column plus `len - 1` gap columns. -/
theorem table_x_offset_bug :
    table_x_offset HorizontalAlignment.right 10 [3, 2] = 1 ∧
    10 - 1 - (([3, 2] : List Nat).sum + 2 - 1) = 3 ∧
    table_x_offset HorizontalAlignment.right 10 [3, 2] ≠
      10 - 1 - (([3, 2] : List Nat).sum + 2 - 1) ∧
    table_x_offset HorizontalAlignment.center 10 [3, 2] = 1 ∧
    (10 - (([3, 2] : List Nat).sum + 2 - 1)) / 2 = 2 ∧
    table_x_offset HorizontalAlignment.center 10 [3, 2] ≠
      (10 - (([3, 2] : List Nat).sum + 2 - 1)) / 2 ∧
    table_x_offset HorizontalAlignment.left 10 [3, 2] = 1 := by
  decide

/-- The stateful cell loop equals the stateless per-cell description in which
each cell is compared against the previous cell (the carrier of the last
emitted colors). -/
theorem draw_cells_eq_cell_events (buffer : List Cell) :
    ∀ prev : Cell,
      draw_cells buffer prev.foreground_color prev.background_color =
        ((buffer.zip (prev :: buffer)).map fun pc => cell_events pc.2 pc.1).flatten := by
  induction buffer with
  | nil =>
    intro prev
    rfl
  | cons cell rest ih =>
    intro prev
    have hfg : (if cell.foreground_color ≠ prev.foreground_color
        then cell.foreground_color else prev.foreground_color) = cell.foreground_color := by
      by_cases h : cell.foreground_color = prev.foreground_color <;> simp [h]
    have hbg : (if cell.background_color ≠ prev.background_color
        then cell.background_color else prev.background_color) = cell.background_color := by
      by_cases h : cell.background_color = prev.background_color <;> simp [h]
    simp only [draw_cells, List.zip_cons_cons, List.map_cons, List.flatten_cons,
      cell_events]
    rw [hfg, hbg, ih cell]
    simp [cell_events, List.append_assoc]

/-- C5: one flush emits the full-screen clear followed by the explicit default
foreground and background escapes regardless of the first cell's colors, and
then, scanning the buffer row-major, each cell contributes a foreground
(resp. background) escape immediately before its glyph exactly when its
foreground (resp. background) differs from the previous cell's - i.e. from
the last emitted color, which starts at the default. -/
theorem draw_spec (buffer : List Cell) :
    draw buffer = OutEvent.clear :: OutEvent.setForeground Color.default ::
      OutEvent.setBackground Color.default ::
      ((buffer.zip (Cell.defaultCell :: buffer)).map fun pc => cell_events pc.2 pc.1).flatten := by
  simp only [draw]
  rw [← draw_cells_eq_cell_events buffer Cell.defaultCell]
  rfl

/-- C10: the Bottom-alignment start row `height - 1 - 1 - lines_count`
underflows exactly when the wrapped line count exceeds the inner height
`height - 2`; under the precondition `lines_count + 2 ≤ height` it cannot
underflow and equals `height - 2 - lines_count`. -/
theorem text_bottom_underflow (height lines_count : Nat) :
    (height < lines_count + 2 → text_bottom_start_row height lines_count = none) ∧
    (lines_count + 2 ≤ height →
      text_bottom_start_row height lines_count = some (height - 2 - lines_count)) := by
  constructor
  · intro h
    by_cases h1 : 1 ≤ height
    · by_cases h2 : 1 ≤ height - 1
      · have h3 : ¬ (lines_count ≤ height - 1 - 1) := by omega
        simp [text_bottom_start_row, checked_sub, h1, h2, h3]
      · simp [text_bottom_start_row, checked_sub, h1, h2]
    · simp [text_bottom_start_row, checked_sub, h1]
  · intro h
    have h1 : 1 ≤ height := by omega
    have h2 : 1 ≤ height - 1 := by omega
    have h3 : lines_count ≤ height - 1 - 1 := by omega
    have h4 : height - 1 - 1 - lines_count = height - 2 - lines_count := by omega
    simp [text_bottom_start_row, checked_sub, h1, h2, h3, h4]

/-- C10 witness: nine characters wrapped at width `3` give `3` lines, which
overflow a region of height `4` (inner height `2`) and make the subtraction
underflow; a region of height `10` with `3` lines is safe. -/
theorem text_bottom_underflow_witness :
    4 < (hwLines 3 ['a', 'b', 'c', 'd', 'e', 'f', 'g', 'h', 'i']).length + 2 ∧
    text_bottom_start_row 4
      ((hwLines 3 ['a', 'b', 'c', 'd', 'e', 'f', 'g', 'h', 'i']).length) = none ∧
    text_bottom_start_row 10 3 = some (10 - 2 - 3) :=
  ⟨by decide,
   (text_bottom_underflow 4 _).1 (by decide),
   (text_bottom_underflow 10 3).2 (by decide)⟩

end TinyTui
